import Mathlib

/-!
Verification development for the validator uptime service.

The definitions below are a shallow embedding of the core
components: the conditional upsert of the proof store (`storeUptimeProof`),
the refresh-required error encoding and its parser
(`refreshErrorMsg`, `parseRefreshRequired`), the proof-negotiation
engine (`computeSignedUptime` with its forward sweep, upward 5% ramp
and backward sweep), the generate-and-submit orchestrator
(`processValidator`, `runCycle`), the observation aggregator
(`fetchAggregatedUptimes`), and the reconciliation pass
(`reconcileOne`).

Machine `uint64` values are embedded as `Nat`; the two places where
overflow is relevant (`%d` scanning and the `current + 1` ramp
fallback) carry an explicit `2 ^ 64` bound.  The service negotiates
wall-clock uptime seconds, so the `float64` expressions
`math.Floor(float64(c) * 0.95)` and `math.Ceil(float64(c) * 1.05)`
compute the exact rational values `⌊19c/20⌋` and `⌈21c/20⌉` on the
whole domain the service can encounter (the relative error of the
nearest-double products is far below the distance to the surrounding
integers for `c` up to about `2 ^ 45`); they are embedded as that
exact integer arithmetic.  Network calls (aggregator signing,
contract submission, node RPC reads) are embedded as deterministic
oracles describing the responses of one run.
-/

/-- Digit character for a decimal digit, as produced by the Go `%d`
formatting (ASCII `'0'` is 48). -/
def decDigitChar (d : Nat) : Char := Char.ofNat (48 + d)

/-- Decimal rendering of a natural number, modelling the `fmt` verb `%d`
output used by `fmt.Errorf("refresh_required:%d", u)`. -/
def natDec (n : Nat) : List Char :=
  if n = 0 then ['0'] else ((Nat.digits 10 n).reverse.map decDigitChar)

/-- Decimal scan modelling the `fmt.Sscanf` verb `%d` on a `uint64`
argument: skip leading spaces, require at least one digit, read the
maximal digit run (trailing text is ignored by `Sscanf`), and fail on
values that do not fit in a `uint64`. -/
def parseDec (cs : List Char) : Option Nat :=
  let cs := cs.dropWhile (· = ' ')
  let ds := cs.takeWhile (fun c => c.isDigit)
  if ds.isEmpty then none
  else
    let v := ds.foldl (fun a c => 10 * a + (c.toNat - 48)) 0
    if v < 2 ^ 64 then some v else none

/-- The sentinel of the store, `refresh_required:`. -/
def refreshPfx : List Char := "refresh_required:".toList

/-- The error string `fmt.Errorf("%s%d", refreshPrefix, existingUptime)`
returned by `UptimeStore.StoreUptimeProof` when the new uptime would
regress. -/
def refreshErrorMsg (u : Nat) : String := String.mk (refreshPfx ++ natDec u)

/-- Embedding of `parseRefreshRequired` from `service/uptime_service.go`:
`nil` errors and errors without the `refresh_required:` prefix yield
`(false, 0)`; otherwise the decimal after the prefix is scanned. -/
def parseRefreshRequired (err : Option String) : Bool × Nat :=
  match err with
  | none => (false, 0)
  | some msg =>
    if refreshPfx.isPrefixOf msg.toList then
      match parseDec (msg.toList.drop refreshPfx.length) with
      | some v => (true, v)
      | none => (false, 0)
    else (false, 0)

/-- Substring test on character lists, modelling the Go
function `strings.Contains`. -/
def containsSub (hay needle : List Char) : Bool :=
  match hay with
  | [] => needle.isPrefixOf []
  | _ :: t => needle.isPrefixOf hay || containsSub t needle

/-- `strings.Contains(hay, needle)`. -/
def strContains (hay needle : String) : Bool :=
  containsSub hay.toList needle.toList

/-- A row of the `uptime_proofs` table.  `created_at` is filled by the
database default on insert; `updated_at` is written explicitly. -/
structure ProofRow (M : Type) where
  uptimeSeconds : Nat
  signedMessage : M
  createdAt : Nat
  updatedAt : Nat

/-- The `uptime_proofs` table, keyed by the string
form of the validation ID (its primary key). -/
def PTable (M : Type) : Type := String → Option (ProofRow M)

/-- Embedding of `UptimeStore.StoreUptimeProof` (db package): insert
when no row exists; full update when the new uptime is strictly
greater; signature-refresh update when equal; otherwise leave the
table unchanged and return the `refresh_required:<existing>` error.
The returned `Option String` is the Go `error` (`none` = `nil`). -/
def storeUptimeProof {M : Type} (tbl : PTable M) (v : String) (u : Nat) (m : M)
    (now : Nat) : Option String × PTable M :=
  match tbl v with
  | none =>
    (none, fun w => if w = v then some ⟨u, m, now, now⟩ else tbl w)
  | some ex =>
    if ex.uptimeSeconds < u then
      (none, fun w => if w = v then some ⟨u, m, ex.createdAt, now⟩ else tbl w)
    else if u = ex.uptimeSeconds then
      (none, fun w => if w = v then some ⟨ex.uptimeSeconds, m, ex.createdAt, now⟩ else tbl w)
    else
      (some (refreshErrorMsg ex.uptimeSeconds), tbl)

/-- Apply a sequence of `StoreUptimeProof` calls
`(validationID, uptime, message, now)` in order, keeping the table. -/
def applyStores {M : Type} (tbl : PTable M) (ops : List (String × Nat × M × Nat)) :
    PTable M :=
  ops.foldl (fun t op => (storeUptimeProof t op.1 op.2.1 op.2.2.1 op.2.2.2).2) tbl

/-- Exact value of `uint64(math.Ceil(float64(c) * 1.05))` on the
wall-clock domain of the engine: `⌈21c/20⌉`. -/
def rampCeil (c : Nat) : Nat := (c * 21 + 19) / 20

/-- One ramp step with the `uint64` conversion result `conv` of the
`math.Ceil` expression left as a parameter (the Go conversion is
implementation-dependent once the product exceeds the `uint64` range,
but every implementation returns some value below `2 ^ 64`).  The
`current + 1` fallback is machine addition, hence the `% 2 ^ 64`. -/
def rampNextConv (conv c : Nat) : Nat :=
  if conv ≤ c then (c + 1) % 2 ^ 64 else conv

/-- The ramp step on the actual domain of the engine, where the conversion
yields the exact `⌈21c/20⌉`. -/
def rampNext (c : Nat) : Nat := rampNextConv (rampCeil c) c

/-- The upward 5% ramp loop of `computeSignedUptime` (entered only
from the highest sample): keep signing `rampNext current` until a
sign fails, keeping the last successfully signed pair.  The loop in
the source terminates when a sign fails; `fuel` bounds the number of
consecutive successful ramp signatures considered in a run. -/
def rampLoop {M : Type} (sign : Nat → Option M) : Nat → Nat → M → Nat × M
  | 0, c, m => (c, m)
  | fuel + 1, c, m =>
    match sign (rampNext c) with
    | none => (c, m)
    | some m2 => rampLoop sign fuel (rampNext c) m2

/-- The forward sweep of `computeSignedUptime`: try each sample in
order; on the first success return it, ramping upward first when the
success was at index 0 (`isFirst` tracks `idx == 0`). -/
def forwardSweep {M : Type} (sign : Nat → Option M) (fuel : Nat) :
    Bool → List Nat → Option (Nat × M)
  | _, [] => none
  | isFirst, s :: rest =>
    match sign s with
    | none => forwardSweep sign fuel false rest
    | some m => if isFirst then some (rampLoop sign fuel s m) else some (s, m)

/-- The backward sweep of `computeSignedUptime`, entered when every
sample failed to sign.  Returns the result together with the list of
uptime values passed to `Sign`, in call order.  `current` starts at
the last sample; each iteration first decreases it to `⌊19c/20⌋`,
gives up at 0, tries the stored uptime once (and stops) as soon as
the value falls to or below a positive stored uptime, and otherwise
tries the decreased value. -/
def backSweep {M : Type} (sign : Nat → Option M) (stored : Nat) (current : Nat) :
    Option (Nat × M) × List Nat :=
  let c := current * 19 / 20
  if c = 0 then (none, [])
  else if 0 < stored ∧ c ≤ stored then
    match sign stored with
    | some m => (some (stored, m), [stored])
    | none => (none, [stored])
  else
    match sign c with
    | some m => (some (c, m), [c])
    | none =>
      let p := backSweep sign stored c
      (p.1, c :: p.2)
termination_by current
decreasing_by
  rename_i hc _
  have h1 : 0 < current := by
    rcases Nat.eq_zero_or_pos current with h | h
    · subst h; simp at hc
    · exact h
  rw [Nat.div_lt_iff_lt_mul (by norm_num : (0 : Nat) < 20)]
  omega

/-- Embedding of `UptimeService.computeSignedUptime`.  `sign u` models
`PackValidationUptimeMessage` followed by `SubmitAggregateRequest`
for this validator in this run; `stored` is the snapshot uptime for
the validator (0 when absent, as in the map lookup of the source).  The
source reads `uptimeSamples[len(uptimeSamples)-1]`, which panics on
an empty slice; the guard in the orchestrator makes that unreachable, and
the embedding returns `none` on the empty list. -/
def computeSignedUptime {M : Type} (sign : Nat → Option M) (fuel : Nat)
    (samples : List Nat) (stored : Nat) : Option (Nat × M) :=
  match forwardSweep sign fuel true samples with
  | some r => some r
  | none =>
    match samples.getLast? with
    | none => none
    | some last => (backSweep sign stored last).1

/-- Embedding of `UptimeService.storeUptimeProofWithRefresh`: attempt
the store; when it signals `refresh_required:<stored>`, re-sign at
the stored uptime (the repack and aggregate steps of the source are the
`sign` oracle; both failure branches surface as an error) and store
the refreshed signature at that same uptime. -/
def storeUptimeProofWithRefresh {M : Type} (sign : Nat → Option M) (tbl : PTable M)
    (v : String) (u : Nat) (m : M) (now : Nat) : Option String × PTable M :=
  let r := storeUptimeProof tbl v u m now
  match parseRefreshRequired r.1 with
  | (false, _) => r
  | (true, stored) =>
    match sign stored with
    | none => (some "refresh signature failed", r.2)
    | some m2 =>
      let r2 := storeUptimeProof r.2 v stored m2 now
      match r2.1 with
      | some e => (some ("refresh store failed: " ++ e), r2.2)
      | none => (none, r2.2)

/-- The external environment of one run for
`GenerateAndSubmitUptimeProofs`: the signing oracle per validator,
the contract submission outcome (`none` = accepted), the
`ids.FromString` parse outcome, the bootstrap skip-list, the ramp
fuel and the write timestamp. -/
structure CycleEnv (M : Type) where
  sign : String → Nat → Option M
  submit : String → M → Option String
  parseOK : String → Bool
  bootstrap : List String
  fuel : Nat
  now : Nat

/-- Observable per-validator events of the generate-and-submit loop:
a contract submission with its outcome, and a proof-store write
request with its uptime. -/
inductive PEv : Type where
  | submitEv (ok : Bool) : PEv
  | storeEv (u : Nat) : PEv
deriving DecidableEq

/-- Snapshot lookup of the stored uptime of a validator, 0 when absent
(the source pattern `if proof, exists := storedProofs[v]`). -/
def storedUptimeOf {M : Type} (snap : PTable M) (v : String) : Nat :=
  match snap v with
  | some r => r.uptimeSeconds
  | none => 0

/-- One iteration of the `GenerateAndSubmitUptimeProofs` loop for
validator `v`: skip bootstrap validators, skip empty sample lists,
run the negotiation engine, skip when it produced no signature, skip
on a malformed ID, submit on-chain, and only on submission success
store (with refresh).  Every failure path leaves the loop running
(`continue` in the source), so the function always returns. -/
def processValidator {M : Type} (env : CycleEnv M) (snap tbl : PTable M)
    (v : String) (samples : List Nat) : PTable M × List PEv :=
  if env.bootstrap.contains v then (tbl, [])
  else if samples.isEmpty then (tbl, [])
  else
    match computeSignedUptime (env.sign v) env.fuel samples (storedUptimeOf snap v) with
    | none => (tbl, [])
    | some (u, m) =>
      if env.parseOK v then
        match env.submit v m with
        | some _ => (tbl, [PEv.submitEv false])
        | none =>
          let r := storeUptimeProofWithRefresh (env.sign v) tbl v u m env.now
          (r.2, [PEv.submitEv true, PEv.storeEv u])
      else (tbl, [])

/-- The loop of `GenerateAndSubmitUptimeProofs` over the fetched
validator map (one snapshot `snap` is read before the loop), threading
the live table and collecting the events of each validator. -/
def runCycleFrom {M : Type} (env : CycleEnv M) (snap : PTable M) :
    PTable M → List (String × List Nat) → PTable M × List (List PEv)
  | tbl, [] => (tbl, [])
  | tbl, (v, ss) :: rest =>
    let r := processValidator env snap tbl v ss
    let r2 := runCycleFrom env snap r.1 rest
    (r2.1, r.2 :: r2.2)

/-- Embedding of `GenerateAndSubmitUptimeProofs`: snapshot the store
once, then process every fetched validator in order. -/
def runCycle {M : Type} (env : CycleEnv M) (tbl : PTable M)
    (vs : List (String × List Nat)) : PTable M × List (List PEv) :=
  runCycleFrom env tbl tbl vs

/-- An uptime sample as returned by the
`validators.getCurrentValidators` call of one node (the aggregation only reads
the validation ID and the uptime; node ID and active flag are
dropped by `FetchAggregatedUptimes`). -/
structure USample : Type where
  validationID : String
  uptimeSeconds : Nat

/-- Append one sample to the aggregation map
(`result.data[u.ValidationID] = append(..., u.UptimeSeconds)`),
creating the entry on first sight of the key. -/
def addSample (m : List (String × List Nat)) (v : String) (u : Nat) :
    List (String × List Nat) :=
  match m with
  | [] => [(v, [u])]
  | (w, l) :: rest =>
    if w = v then (w, l ++ [u]) :: rest else (w, l) :: addSample rest v u

/-- Fold the sample list of one endpoint into the aggregation map. -/
def collectFrom (m : List (String × List Nat)) (ss : List USample) :
    List (String × List Nat) :=
  ss.foldl (fun acc s => addSample acc s.validationID s.uptimeSeconds) m

/-- Fold the outcome of every endpoint into the aggregation map; a failed
endpoint (`none`, a transport error or malformed response) contributes
nothing.  The goroutines are joined before the map is read and every
per-key group is canonicalised by sorting, so the arrival order across
endpoints is modelled by the list order. -/
def collectAll (rs : List (Option (List USample))) : List (String × List Nat) :=
  rs.foldl
    (fun acc r =>
      match r with
      | none => acc
      | some ss => collectFrom acc ss) []

/-- Descending sort of a sample group, modelling
`sort.Slice(slice, func(i, j) { slice[i] > slice[j] })`. -/
def sortDesc (l : List Nat) : List Nat := List.insertionSort (· ≥ ·) l

/-- Embedding of `validator.FetchAggregatedUptimes`: group all samples
of the reachable endpoints by validation ID, then sort each group in
non-increasing order. -/
def fetchAggregatedUptimes (rs : List (Option (List USample))) :
    List (String × List Nat) :=
  (collectAll rs).map (fun p => (p.1, sortDesc p.2))

/-- Lookup in the aggregation map. -/
def lookupA (m : List (String × List Nat)) (v : String) : Option (List Nat) :=
  match m with
  | [] => none
  | (w, l) :: rest => if w = v then some l else lookupA rest v

/-- The multiset (in arrival order) of uptime samples reported for
validator `v` by the successful endpoints. -/
def samplesFor (v : String) (rs : List (Option (List USample))) : List Nat :=
  (rs.foldr
      (fun r acc =>
        match r with
        | none => acc
        | some ss => ss ++ acc) []).filterMap
    (fun s => if s.validationID = v then some s.uptimeSeconds else none)

/-- Outcome of one reconciliation iteration in
`SubmitMissingUptimeProofs`. -/
inductive ReconRes (M : Type) : Type where
  | okFirst : ReconRes M
  | okResigned (m : M) : ReconRes M
  | failed (reason : String) : ReconRes M

/-- One iteration of the `SubmitMissingUptimeProofs` loop for a stored
proof with uptime `u` and signed message `m`: submit the stored
message; when the contract error contains `invalid warp message`,
re-pack at the stored uptime, re-aggregate, and submit the fresh
message.  The loop writes nothing to the proof store on any path, so
the table is threaded through unchanged. -/
def reconcileOne {M U : Type} (submit : M → Option String) (pack : Nat → Option U)
    (agg : U → Option M) (tbl : PTable M) (u : Nat) (m : M) :
    ReconRes M × PTable M :=
  match submit m with
  | none => (ReconRes.okFirst, tbl)
  | some e =>
    if strContains e "invalid warp message" then
      match pack u with
      | none => (ReconRes.failed "re-sign pack error", tbl)
      | some un =>
        match agg un with
        | none => (ReconRes.failed "re-sign submit error", tbl)
        | some m2 =>
          match submit m2 with
          | none => (ReconRes.okResigned m2, tbl)
          | some _ => (ReconRes.failed "resubmit error", tbl)
    else (ReconRes.failed ("initial error: " ++ e), tbl)

lemma decDigitChar_isDigit {d : Nat} (h : d < 10) : (decDigitChar d).isDigit = true := by
  interval_cases d <;> decide

lemma decDigitChar_val {d : Nat} (h : d < 10) : (decDigitChar d).toNat - 48 = d := by
  interval_cases d <;> decide

lemma natDec_all_digits (n : Nat) : ∀ c ∈ natDec n, c.isDigit = true := by
  intro c hc
  unfold natDec at hc
  by_cases h0 : n = 0
  · simp [h0] at hc
    subst hc; decide
  · simp [h0] at hc
    obtain ⟨d, hd, hcd⟩ := hc
    have hlt : d < 10 := Nat.digits_lt_base (by norm_num) hd
    subst hcd
    exact decDigitChar_isDigit hlt

lemma natDec_ne_nil (n : Nat) : natDec n ≠ [] := by
  unfold natDec
  by_cases h0 : n = 0
  · simp [h0]
  · simp [h0]
    exact Nat.digits_ne_nil_iff_ne_zero.mpr h0

lemma dropWhile_space_of_digits (cs : List Char) (h : ∀ c ∈ cs, c.isDigit = true) :
    cs.dropWhile (· = ' ') = cs := by
  cases cs with
  | nil => rfl
  | cons a t =>
    have ha : a.isDigit = true := h a (by simp)
    have hne : (a = ' ') = False := by
      by_contra hcontra
      simp at hcontra
      subst hcontra
      simp at ha
    simp [List.dropWhile_cons, hne]

lemma takeWhile_digits (cs : List Char) (h : ∀ c ∈ cs, c.isDigit = true) :
    cs.takeWhile (fun c => c.isDigit) = cs := by
  induction cs with
  | nil => rfl
  | cons a t ih =>
    have ha := h a (by simp)
    simp only [List.takeWhile_cons, ha, if_true]
    rw [ih (fun c hc => h c (List.mem_cons_of_mem _ hc))]

lemma foldl_map_decDigit (ds : List Nat) (h : ∀ d ∈ ds, d < 10) : ∀ a : Nat,
    (ds.map decDigitChar).foldl (fun x c => 10 * x + (c.toNat - 48)) a =
      ds.foldl (fun x d => 10 * x + d) a := by
  induction ds with
  | nil => intro a; rfl
  | cons d t ih =>
    intro a
    have hd : d < 10 := h d (by simp)
    simp only [List.map_cons, List.foldl_cons, decDigitChar_val hd]
    exact ih (fun e he => h e (by simp [he])) _

lemma foldl_reverse_ofDigits (ds : List Nat) :
    ds.reverse.foldl (fun a d => 10 * a + d) 0 = Nat.ofDigits 10 ds := by
  induction ds with
  | nil => simp
  | cons d t ih =>
    simp [List.foldl_append, Nat.ofDigits_cons, ih]
    ring

lemma parseDec_natDec {n : Nat} (h : n < 2 ^ 64) : parseDec (natDec n) = some n := by
  simp only [parseDec]
  rw [dropWhile_space_of_digits _ (natDec_all_digits n),
    takeWhile_digits _ (natDec_all_digits n)]
  have hne : (natDec n).isEmpty = false := by
    cases hmm : natDec n with
    | nil => exact absurd hmm (natDec_ne_nil n)
    | cons a t => rfl
  simp only [hne, Bool.false_eq_true, if_false]
  have hval : (natDec n).foldl (fun a c => 10 * a + (c.toNat - 48)) 0 = n := by
    unfold natDec
    by_cases h0 : n = 0
    · simp [h0]
    · simp only [h0, if_false]
      rw [foldl_map_decDigit _
        (fun d hd => Nat.digits_lt_base (by norm_num) (List.mem_reverse.mp hd)),
        foldl_reverse_ofDigits, Nat.ofDigits_digits]
  rw [hval, if_pos h]

lemma isPrefixOf_append (l t : List Char) : l.isPrefixOf (l ++ t) = true := by
  induction l with
  | nil => simp [List.isPrefixOf]
  | cons a as ih => simp [List.isPrefixOf, ih]

lemma parseRefreshRequired_round {u : Nat} (h : u < 2 ^ 64) :
    parseRefreshRequired (some (refreshErrorMsg u)) = (true, u) := by
  have htl : (String.mk (refreshPfx ++ natDec u)).toList = refreshPfx ++ natDec u := rfl
  simp only [parseRefreshRequired, refreshErrorMsg, htl, isPrefixOf_append, if_true,
    List.drop_left, parseDec_natDec h]

lemma parseRefreshRequired_noPfx (s : String) (h : ¬ refreshPfx <+: s.toList) :
    parseRefreshRequired (some s) = (false, 0) := by
  have hb : refreshPfx.isPrefixOf s.toList = false := by
    rw [Bool.eq_false_iff]
    exact fun hp => h ( List.isPrefixOf_iff_prefix.mp hp)
  simp only [parseRefreshRequired]
  rw [hb]
  simp

lemma store_insert {M : Type} (tbl : PTable M) (v : String) (u : Nat) (m : M)
    (now : Nat) (h : tbl v = none) :
    storeUptimeProof tbl v u m now =
      (none, fun w => if w = v then some ⟨u, m, now, now⟩ else tbl w) := by
  simp [storeUptimeProof, h]

lemma store_advance {M : Type} (tbl : PTable M) (v : String) (u : Nat) (m : M)
    (now : Nat) (ex : ProofRow M) (h : tbl v = some ex) (hlt : ex.uptimeSeconds < u) :
    storeUptimeProof tbl v u m now =
      (none, fun w => if w = v then some ⟨u, m, ex.createdAt, now⟩ else tbl w) := by
  simp [storeUptimeProof, h, hlt]

lemma store_refreshEq {M : Type} (tbl : PTable M) (v : String) (m : M)
    (now : Nat) (ex : ProofRow M) (h : tbl v = some ex) :
    storeUptimeProof tbl v ex.uptimeSeconds m now =
      (none, fun w => if w = v then some ⟨ex.uptimeSeconds, m, ex.createdAt, now⟩ else tbl w) := by
  simp [storeUptimeProof, h]

lemma store_regress {M : Type} (tbl : PTable M) (v : String) (u : Nat) (m : M)
    (now : Nat) (ex : ProofRow M) (h : tbl v = some ex) (hgt : u < ex.uptimeSeconds) :
    storeUptimeProof tbl v u m now = (some (refreshErrorMsg ex.uptimeSeconds), tbl) := by
  have h1 : ¬ ex.uptimeSeconds < u := by omega
  have h2 : ¬ u = ex.uptimeSeconds := by omega
  simp [storeUptimeProof, h, h1, h2]

lemma store_mono_step {M : Type} (tbl : PTable M) (v : String) (u : Nat) (m : M)
    (now : Nat) (w : String) (ex : ProofRow M) (h : tbl w = some ex) :
    ∃ ex2, (storeUptimeProof tbl v u m now).2 w = some ex2 ∧
      ex.uptimeSeconds ≤ ex2.uptimeSeconds := by
  by_cases hw : w = v
  · subst hw
    by_cases hlt : ex.uptimeSeconds < u
    · rw [store_advance tbl w u m now ex h hlt]
      exact ⟨⟨u, m, ex.createdAt, now⟩, by simp, Nat.le_of_lt hlt⟩
    · by_cases heq : u = ex.uptimeSeconds
      · subst heq
        rw [store_refreshEq tbl w m now ex h]
        exact ⟨⟨ex.uptimeSeconds, m, ex.createdAt, now⟩, by simp, Nat.le_refl _⟩
      · have hgt : u < ex.uptimeSeconds := by omega
        rw [store_regress tbl w u m now ex h hgt]
        exact ⟨ex, h, Nat.le_refl _⟩
  · refine ⟨ex, ?_, Nat.le_refl _⟩
    cases hv : tbl v with
    | none =>
      rw [store_insert tbl v u m now hv]
      simp [hw, h]
    | some exv =>
      by_cases hlt : exv.uptimeSeconds < u
      · rw [store_advance tbl v u m now exv hv hlt]
        simp [hw, h]
      · by_cases heq : u = exv.uptimeSeconds
        · subst heq
          rw [store_refreshEq tbl v m now exv hv]
          simp [hw, h]
        · have hgt : u < exv.uptimeSeconds := by omega
          rw [store_regress tbl v u m now exv hv hgt]
          exact h

lemma applyStores_mono {M : Type} (ops : List (String × Nat × M × Nat)) :
    ∀ (tbl : PTable M) (w : String) (ex : ProofRow M), tbl w = some ex →
      ∃ ex2, applyStores tbl ops w = some ex2 ∧
        ex.uptimeSeconds ≤ ex2.uptimeSeconds := by
  induction ops with
  | nil => intro tbl w ex h; exact ⟨ex, h, Nat.le_refl _⟩
  | cons op rest ih =>
    intro tbl w ex h
    obtain ⟨ex1, h1, hle1⟩ := store_mono_step tbl op.1 op.2.1 op.2.2.1 op.2.2.2 w ex h
    obtain ⟨ex2, h2, hle2⟩ :=
      ih (storeUptimeProof tbl op.1 op.2.1 op.2.2.1 op.2.2.2).2 w ex1 h1
    exact ⟨ex2, h2, Nat.le_trans hle1 hle2⟩

/-- C1: `StoreUptimeProof` inserts and returns OK when no row exists;
strictly greater uptime updates uptime, signed message and
`updated_at`; equal uptime refreshes only the signed message and
`updated_at`; strictly smaller uptime leaves the table completely
unchanged and returns the `refresh_required:` error carrying the
existing uptime.  Consequently the stored uptime of any validation ID
is monotonically non-decreasing across any sequence of store calls. -/
theorem storeUptimeProof_contract {M : Type} (tbl : PTable M) (v : String) (u : Nat)
    (m : M) (now : Nat) :
    (tbl v = none →
      (storeUptimeProof tbl v u m now).1 = none ∧
      (storeUptimeProof tbl v u m now).2 v = some ⟨u, m, now, now⟩ ∧
      ∀ w, w ≠ v → (storeUptimeProof tbl v u m now).2 w = tbl w) ∧
    (∀ ex, tbl v = some ex →
      (ex.uptimeSeconds < u →
        (storeUptimeProof tbl v u m now).1 = none ∧
        (storeUptimeProof tbl v u m now).2 v = some ⟨u, m, ex.createdAt, now⟩ ∧
        ∀ w, w ≠ v → (storeUptimeProof tbl v u m now).2 w = tbl w) ∧
      (u = ex.uptimeSeconds →
        (storeUptimeProof tbl v u m now).1 = none ∧
        (storeUptimeProof tbl v u m now).2 v = some ⟨ex.uptimeSeconds, m, ex.createdAt, now⟩ ∧
        ∀ w, w ≠ v → (storeUptimeProof tbl v u m now).2 w = tbl w) ∧
      (u < ex.uptimeSeconds →
        (storeUptimeProof tbl v u m now).1 = some (refreshErrorMsg ex.uptimeSeconds) ∧
        (storeUptimeProof tbl v u m now).2 = tbl)) ∧
    (∀ ops (w : String) (ex : ProofRow M), tbl w = some ex →
      ∃ ex2, applyStores tbl ops w = some ex2 ∧
        ex.uptimeSeconds ≤ ex2.uptimeSeconds) := by
  refine ⟨?_, ?_, fun ops w ex h => applyStores_mono ops tbl w ex h⟩
  · intro h
    rw [store_insert tbl v u m now h]
    exact ⟨rfl, by simp, fun w hw => by simp [hw]⟩
  · intro ex hex
    refine ⟨?_, ?_, ?_⟩
    · intro hlt
      rw [store_advance tbl v u m now ex hex hlt]
      exact ⟨rfl, by simp, fun w hw => by simp [hw]⟩
    · intro heq
      subst heq
      rw [store_refreshEq tbl v m now ex hex]
      exact ⟨rfl, by simp, fun w hw => by simp [hw]⟩
    · intro hgt
      rw [store_regress tbl v u m now ex hex hgt]
      exact ⟨rfl, rfl⟩

/-- Concrete table used to witness the store contract. -/
def tblC1 : PTable Nat := fun w => if w = "a" then some ⟨5, 0, 1, 1⟩ else none

theorem storeUptimeProof_contract_witness :
    (storeUptimeProof tblC1 "a" 3 0 9).1 = some (refreshErrorMsg 5) ∧
    (storeUptimeProof tblC1 "a" 3 0 9).2 = tblC1 :=
  ((storeUptimeProof_contract tblC1 "a" 3 0 9).2.1 ⟨5, 0, 1, 1⟩ rfl).2.2 (by norm_num)

/-- C6: the regression signal round-trips through its textual
encoding: the store error is exactly `refresh_required:` followed
by the decimal stored uptime, `parseRefreshRequired` recovers
`(true, u)` from it for every `uint64` value, returns `(false, 0)`
on `nil` and on any error without the prefix; and the orchestrator
function `storeUptimeProofWithRefresh` treats the signal by re-signing at the
stored uptime and refreshing the signature at that same uptime,
returning no error. -/
theorem refreshSignal_contract {M : Type} :
    (∀ u : Nat, u < 2 ^ 64 → parseRefreshRequired (some (refreshErrorMsg u)) = (true, u)) ∧
    parseRefreshRequired none = (false, 0) ∧
    (∀ s : String, ¬ refreshPfx <+: s.toList → parseRefreshRequired (some s) = (false, 0)) ∧
    (∀ (sign : Nat → Option M) (tbl : PTable M) (v : String) (u : Nat) (m : M)
      (now : Nat) (ex : ProofRow M) (m2 : M),
      tbl v = some ex → u < ex.uptimeSeconds → ex.uptimeSeconds < 2 ^ 64 →
      sign ex.uptimeSeconds = some m2 →
      storeUptimeProofWithRefresh sign tbl v u m now =
        (none, fun w =>
          if w = v then some ⟨ex.uptimeSeconds, m2, ex.createdAt, now⟩ else tbl w)) := by
  refine ⟨fun u hu => parseRefreshRequired_round hu, rfl,
    fun s hs => parseRefreshRequired_noPfx s hs, ?_⟩
  intro sign tbl v u m now ex m2 hex hlt h64 hsign
  have h1 : storeUptimeProof tbl v u m now = (some (refreshErrorMsg ex.uptimeSeconds), tbl) :=
    store_regress tbl v u m now ex hex hlt
  have h3 : storeUptimeProof tbl v ex.uptimeSeconds m2 now =
      (none, fun w => if w = v then some ⟨ex.uptimeSeconds, m2, ex.createdAt, now⟩ else tbl w) :=
    store_refreshEq tbl v m2 now ex hex
  simp only [storeUptimeProofWithRefresh, h1, parseRefreshRequired_round h64, hsign, h3]

/-- Concrete table used to witness the refresh-signal contract. -/
def tblC6 : PTable Nat := fun w => if w = "b" then some ⟨8, 0, 2, 2⟩ else none

theorem refreshSignal_contract_witness :
    storeUptimeProofWithRefresh (fun u => if u = 8 then some 1 else none) tblC6 "b" 4 0 9 =
      (none, fun w => if w = "b" then some ⟨8, 1, 2, 9⟩ else tblC6 w) :=
  (refreshSignal_contract (M := Nat)).2.2.2 (fun u => if u = 8 then some 1 else none)
    tblC6 "b" 4 0 9 ⟨8, 0, 2, 2⟩ 1 rfl (by norm_num) (by norm_num) rfl

/-- Largest sample of a group (0 for the empty group). -/
def maxSample (l : List Nat) : Nat := l.foldr max 0

lemma rampCeil_ge (c : Nat) (h : 1 ≤ c) : c + 1 ≤ rampCeil c := by
  unfold rampCeil
  rw [Nat.le_div_iff_mul_le (by norm_num : (0 : Nat) < 20)]
  omega

lemma rampNext_gt (c : Nat) : c < rampNext c := by
  unfold rampNext rampNextConv
  by_cases h : rampCeil c ≤ c
  · have h0 : c = 0 := by
      by_contra hne
      have := rampCeil_ge c (Nat.one_le_iff_ne_zero.mpr hne)
      omega
    subst h0
    decide
  · simp only [h, if_false]
    omega

lemma backStep_lt (x : Nat) (hc : x * 19 / 20 ≠ 0) : x * 19 / 20 < x := by
  have hx : 0 < x := Nat.pos_of_ne_zero (fun h => hc (by subst h; rfl))
  rw [Nat.div_lt_iff_lt_mul (by norm_num : (0 : Nat) < 20)]
  omega

lemma rampLoop_spec {M : Type} (sign : Nat → Option M) : ∀ (fuel c : Nat) (m : M),
    sign c = some m →
    sign (rampLoop sign fuel c m).1 = some (rampLoop sign fuel c m).2 ∧
      c ≤ (rampLoop sign fuel c m).1 := by
  intro fuel
  induction fuel with
  | zero => intro c m h; exact ⟨h, Nat.le_refl _⟩
  | succ k ih =>
    intro c m h
    simp only [rampLoop]
    cases hs : sign (rampNext c) with
    | none => exact ⟨h, Nat.le_refl _⟩
    | some m2 =>
      obtain ⟨h1, h2⟩ := ih (rampNext c) m2 hs
      exact ⟨h1, Nat.le_trans (Nat.le_of_lt (rampNext_gt c)) h2⟩

lemma forwardSweep_spec {M : Type} (sign : Nat → Option M) (fuel : Nat) :
    ∀ (samples : List Nat) (b : Bool) (u : Nat) (m : M),
      forwardSweep sign fuel b samples = some (u, m) →
      sign u = some m ∧ ∃ s ∈ samples, s ≤ u := by
  intro samples
  induction samples with
  | nil => intro b u m h; simp [forwardSweep] at h
  | cons s rest ih =>
    intro b u m h
    simp only [forwardSweep] at h
    cases hs : sign s with
    | none =>
      rw [hs] at h
      obtain ⟨h1, t, ht, hle⟩ := ih false u m h
      exact ⟨h1, t, List.mem_cons_of_mem _ ht, hle⟩
    | some m0 =>
      rw [hs] at h
      cases b with
      | false =>
        simp only [Bool.false_eq_true, if_false] at h
        have h2 := Option.some.inj h
        rw [Prod.mk.injEq] at h2
        obtain ⟨rfl, rfl⟩ := h2
        exact ⟨hs, s, by simp, Nat.le_refl _⟩
      | true =>
        simp only [if_true] at h
        have hr := rampLoop_spec sign fuel s m0 hs
        rw [Option.some.inj h] at hr
        exact ⟨hr.1, s, by simp, hr.2⟩

lemma forwardSweep_none {M : Type} (sign : Nat → Option M) (fuel : Nat) :
    ∀ (samples : List Nat) (b : Bool), (∀ s ∈ samples, sign s = none) →
      forwardSweep sign fuel b samples = none := by
  intro samples
  induction samples with
  | nil => intro b _; rfl
  | cons s rest ih =>
    intro b h
    have hs : sign s = none := h s (by simp)
    simp only [forwardSweep, hs]
    exact ih false (fun t ht => h t (List.mem_cons_of_mem _ ht))

lemma bs_eq_zero {M : Type} (sign : Nat → Option M) (stored x : Nat)
    (hc : x * 19 / 20 = 0) : backSweep sign stored x = (none, []) := by
  rw [backSweep.eq_def]
  simp [hc]

lemma bs_eq_stored {M : Type} (sign : Nat → Option M) (stored x : Nat)
    (hc : ¬ x * 19 / 20 = 0) (hs : 0 < stored ∧ x * 19 / 20 ≤ stored) :
    backSweep sign stored x =
      (match sign stored with
        | some m => (some (stored, m), [stored])
        | none => (none, [stored])) := by
  rw [backSweep.eq_def]
  simp only [hc, if_false, hs, if_true]
  simp

lemma bs_eq_try {M : Type} (sign : Nat → Option M) (stored x : Nat)
    (hc : ¬ x * 19 / 20 = 0) (hns : ¬ (0 < stored ∧ x * 19 / 20 ≤ stored)) :
    backSweep sign stored x =
      (match sign (x * 19 / 20) with
        | some m => (some (x * 19 / 20, m), [x * 19 / 20])
        | none =>
          ((backSweep sign stored (x * 19 / 20)).1,
            x * 19 / 20 :: (backSweep sign stored (x * 19 / 20)).2)) := by
  rw [backSweep.eq_def]
  simp only [hc, if_false, hns]

lemma backSweep_spec {M : Type} (sign : Nat → Option M) (stored : Nat) :
    ∀ current : Nat,
    (∀ t ∈ (backSweep sign stored current).2,
      (0 < stored → stored ≤ t) ∧ (t = stored ∨ t < current)) ∧
    (∀ u m, (backSweep sign stored current).1 = some (u, m) →
      sign u = some m ∧ (0 < stored → stored ≤ u) ∧ (u = stored ∨ u < current)) := by
  intro current
  induction current using Nat.strong_induction_on with
  | _ x ih =>
    by_cases hc : x * 19 / 20 = 0
    · rw [bs_eq_zero sign stored x hc]
      exact ⟨fun t ht => absurd ht (by simp), fun u m h => by simp at h⟩
    · by_cases hs : 0 < stored ∧ x * 19 / 20 ≤ stored
      · rw [bs_eq_stored sign stored x hc hs]
        cases hm : sign stored with
        | some m =>
          refine ⟨?_, ?_⟩
          · intro t ht
            simp at ht
            subst ht
            exact ⟨fun _ => Nat.le_refl _, Or.inl rfl⟩
          · intro u m2 h
            simp at h
            obtain ⟨rfl, rfl⟩ := h
            exact ⟨hm, fun _ => Nat.le_refl _, Or.inl rfl⟩
        | none =>
          refine ⟨?_, ?_⟩
          · intro t ht
            simp at ht
            subst ht
            exact ⟨fun _ => Nat.le_refl _, Or.inl rfl⟩
          · intro u m2 h
            simp at h
      · rw [bs_eq_try sign stored x hc hs]
        have hlt : x * 19 / 20 < x := backStep_lt x hc
        have hstg : 0 < stored → stored < x * 19 / 20 := by
          intro hpos
          rcases Decidable.not_and_iff_or_not.mp hs with h | h
          · exact absurd hpos h
          · omega
        cases hm : sign (x * 19 / 20) with
        | some m =>
          refine ⟨?_, ?_⟩
          · intro t ht
            simp at ht
            subst ht
            exact ⟨fun hp => Nat.le_of_lt (hstg hp), Or.inr hlt⟩
          · intro u m2 h
            simp at h
            obtain ⟨rfl, rfl⟩ := h
            exact ⟨hm, fun hp => Nat.le_of_lt (hstg hp), Or.inr hlt⟩
        | none =>
          obtain ⟨ih1, ih2⟩ := ih (x * 19 / 20) hlt
          refine ⟨?_, ?_⟩
          · intro t ht
            simp only [List.mem_cons] at ht
            rcases ht with rfl | ht
            · exact ⟨fun hp => Nat.le_of_lt (hstg hp), Or.inr hlt⟩
            · obtain ⟨hA, hB⟩ := ih1 t ht
              refine ⟨hA, ?_⟩
              rcases hB with h2 | h2
              · exact Or.inl h2
              · exact Or.inr (by omega)
          · intro u m2 h
            simp only at h
            obtain ⟨hA, hB, hC⟩ := ih2 u m2 h
            refine ⟨hA, hB, ?_⟩
            rcases hC with h2 | h2
            · exact Or.inl h2
            · exact Or.inr (by omega)

lemma backSweep_storedTerminal {M : Type} (sign : Nat → Option M) (stored : Nat)
    (hpos : 0 < stored) : ∀ (current : Nat) (tr1 tr2 : List Nat),
    (backSweep sign stored current).2 = tr1 ++ stored :: tr2 →
    tr2 = [] ∧ (backSweep sign stored current).1 =
      (sign stored).map (fun m => (stored, m)) := by
  intro current
  induction current using Nat.strong_induction_on with
  | _ x ih =>
    intro tr1 tr2 heq
    by_cases hc : x * 19 / 20 = 0
    · rw [bs_eq_zero sign stored x hc] at heq
      simp at heq
    · by_cases hs : 0 < stored ∧ x * 19 / 20 ≤ stored
      · rw [bs_eq_stored sign stored x hc hs] at heq ⊢
        revert heq
        cases hm : sign stored with
        | some m =>
          intro heq
          dsimp only at heq ⊢
          cases tr1 with
          | nil =>
            simp only [List.nil_append, List.cons.injEq] at heq
            exact ⟨heq.2.symm, rfl⟩
          | cons a t =>
            simp only [List.cons_append, List.cons.injEq] at heq
            exact absurd heq.2.symm (by simp)
        | none =>
          intro heq
          dsimp only at heq ⊢
          cases tr1 with
          | nil =>
            simp only [List.nil_append, List.cons.injEq] at heq
            exact ⟨heq.2.symm, rfl⟩
          | cons a t =>
            simp only [List.cons_append, List.cons.injEq] at heq
            exact absurd heq.2.symm (by simp)
      · rw [bs_eq_try sign stored x hc hs] at heq ⊢
        have hlt : x * 19 / 20 < x := backStep_lt x hc
        have hstg : stored < x * 19 / 20 := by
          rcases Decidable.not_and_iff_or_not.mp hs with h | h
          · exact absurd hpos h
          · omega
        revert heq
        cases hm : sign (x * 19 / 20) with
        | some m =>
          intro heq
          dsimp only at heq ⊢
          cases tr1 with
          | nil =>
            simp only [List.nil_append, List.cons.injEq] at heq
            obtain ⟨h1, -⟩ := heq
            omega
          | cons a t =>
            simp only [List.cons_append, List.cons.injEq] at heq
            exact absurd heq.2.symm (by simp)
        | none =>
          intro heq
          dsimp only at heq ⊢
          cases tr1 with
          | nil =>
            simp only [List.nil_append, List.cons.injEq] at heq
            obtain ⟨h1, -⟩ := heq
            omega
          | cons a t =>
            simp only [List.cons_append, List.cons.injEq] at heq
            exact ih (x * 19 / 20) hlt t tr2 heq.2

lemma compute_allFail {M : Type} (sign : Nat → Option M) (fuel : Nat)
    (samples : List Nat) (stored last : Nat)
    (hfail : ∀ s ∈ samples, sign s = none) (hl : samples.getLast? = some last) :
    computeSignedUptime sign fuel samples stored = (backSweep sign stored last).1 := by
  simp only [computeSignedUptime, forwardSweep_none sign fuel samples true hfail, hl]

lemma exists_ratio_pow (n : Nat) : ∃ k, n * 20 ^ k ≤ 21 ^ k := by
  refine ⟨20 * n, ?_⟩
  calc n * 20 ^ (20 * n) ≤ 2 ^ n * 20 ^ (20 * n) :=
        Nat.mul_le_mul_right _ (Nat.le_of_lt (Nat.lt_two_pow n))
    _ = 2 ^ n * (20 ^ 20) ^ n := by rw [pow_mul]
    _ = (2 * 20 ^ 20) ^ n := by rw [mul_pow]
    _ ≤ (21 ^ 20) ^ n := Nat.pow_le_pow_left (by norm_num) n
    _ = 21 ^ (20 * n) := by rw [← pow_mul]

/-- C2 (amended): for a validator with samples `S` and stored uptime
`u0`, a positive uptime returned by `computeSignedUptime` was signed
by a successful `Sign` call at exactly that value in the run, the
returned message is the one that call produced, and the value is
bounded below by `min(u0, min S)` (stated as: it is at least `u0` or
at least some sample) — not by `u0` itself, which the forward sweep
can undershoot; for a positive largest sample it also lies below
`max(S)·(21/20)^k` for some `k ≥ 0`. -/
theorem computeSignedUptime_bounds {M : Type} (sign : Nat → Option M) (fuel : Nat)
    (samples : List Nat) (stored u : Nat) (m : M)
    (h : computeSignedUptime sign fuel samples stored = some (u, m)) :
    sign u = some m ∧ (stored ≤ u ∨ ∃ s ∈ samples, s ≤ u) ∧
      (1 ≤ maxSample samples → ∃ k, u * 20 ^ k ≤ maxSample samples * 21 ^ k) := by
  have hmain : sign u = some m ∧ (stored ≤ u ∨ ∃ s ∈ samples, s ≤ u) := by
    simp only [computeSignedUptime] at h
    cases hf : forwardSweep sign fuel true samples with
    | some r =>
      rw [hf] at h
      simp only at h
      obtain ⟨h1, h2⟩ := forwardSweep_spec sign fuel samples true u m
        (by rw [hf, Option.some.inj h])
      exact ⟨h1, Or.inr h2⟩
    | none =>
      rw [hf] at h
      cases hl : samples.getLast? with
      | none => rw [hl] at h; simp at h
      | some last =>
        rw [hl] at h
        simp only at h
        obtain ⟨h1, h2, -⟩ := (backSweep_spec sign stored last).2 u m h
        rcases Nat.eq_zero_or_pos stored with h0 | h0
        · exact ⟨h1, Or.inl (h0 ▸ Nat.zero_le u)⟩
        · exact ⟨h1, Or.inl (h2 h0)⟩
  refine ⟨hmain.1, hmain.2, fun hmax => ?_⟩
  obtain ⟨k, hk⟩ := exists_ratio_pow u
  exact ⟨k, Nat.le_trans hk (Nat.le_mul_of_pos_left _ hmax)⟩

/-- Sign oracle for the C2 witness: only 10 signs. -/
def signC2W : Nat → Option Nat := fun u => if u = 10 then some 1 else none

theorem computeSignedUptime_bounds_witness :
    signC2W 10 = some 1 ∧ ((0 : Nat) ≤ 10 ∨ ∃ s ∈ [10], s ≤ 10) ∧
      (1 ≤ maxSample [10] → ∃ k, 10 * 20 ^ k ≤ maxSample [10] * 21 ^ k) :=
  computeSignedUptime_bounds signC2W 1 [10] 0 10 1 rfl

/-- Sign oracle refuting the claimed `[u0, …]` lower bound: with
`S = [900]` and `u0 = 1050`, signing succeeds only at 900. -/
def sigC2 : Nat → Option Nat := fun u => if u = 900 then some 7 else none

/-- C2 counterexample: the engine returns the positive uptime 900,
which is neither 0 nor at least the stored uptime 1050, so the
returned value does not lie in `{0} ∪ [u0, max(S)·1.05^k]`. -/
theorem computeSignedUptime_claim_counterexample :
    computeSignedUptime sigC2 5 [900] 1050 = some (900, 7) ∧
      (900 : Nat) ≠ 0 ∧ ¬ (1050 : Nat) ≤ 900 := by
  refine ⟨?_, by norm_num, by norm_num⟩
  rfl

/-- Sign oracle for the backward-sweep scenario: fails everywhere
except at 500. -/
def sigC3 : Nat → Option Nat := fun u => if u = 500 then some 9 else none

/-- C3: when every sample fails to sign, the engine runs the backward
sweep from the lowest (last) sample; the sweep decreases `current` to
`⌊current·0.95⌋` before every attempt, gives up with `(0, nil)` when
the value reaches 0, never attempts a value below a positive stored
uptime, attempts the stored uptime at most once and as the final
attempt (returning `(u0, signed)` exactly when that sign succeeds),
and every other attempt is strictly below the starting sample.  On
the literal inputs `S = [800, 600]`, `u0 = 500` with signing
succeeding only at 500, the engine returns uptime 500 after the
attempts 570, 541, 513, 500. -/
theorem backwardSweep_contract :
    (∀ (M : Type) (sign : Nat → Option M) (fuel stored last : Nat) (samples : List Nat),
      (∀ s ∈ samples, sign s = none) → samples.getLast? = some last →
      computeSignedUptime sign fuel samples stored = (backSweep sign stored last).1) ∧
    (∀ (M : Type) (sign : Nat → Option M) (stored current : Nat),
      current * 19 / 20 = 0 → backSweep sign stored current = (none, [])) ∧
    (∀ (M : Type) (sign : Nat → Option M) (stored current : Nat),
      ∀ t ∈ (backSweep sign stored current).2,
        (0 < stored → stored ≤ t) ∧ (t = stored ∨ t < current)) ∧
    (∀ (M : Type) (sign : Nat → Option M) (stored current u : Nat) (m : M),
      (backSweep sign stored current).1 = some (u, m) →
      sign u = some m ∧ (0 < stored → stored ≤ u) ∧ (u = stored ∨ u < current)) ∧
    (∀ (M : Type) (sign : Nat → Option M) (stored current : Nat), 0 < stored →
      ∀ tr1 tr2, (backSweep sign stored current).2 = tr1 ++ stored :: tr2 →
        tr2 = [] ∧ (backSweep sign stored current).1 =
          (sign stored).map (fun m => (stored, m))) ∧
    (computeSignedUptime sigC3 3 [800, 600] 500 = some (500, 9) ∧
      (backSweep sigC3 500 600).2 = [570, 541, 513, 500]) := by
  refine ⟨fun _ sign fuel stored last samples hf hl =>
      compute_allFail sign fuel samples stored last hf hl,
    fun _ sign stored current hc => bs_eq_zero sign stored current hc,
    fun _ sign stored current => (backSweep_spec sign stored current).1,
    fun _ sign stored current u m h => (backSweep_spec sign stored current).2 u m h,
    fun _ sign stored current hpos tr1 tr2 heq =>
      backSweep_storedTerminal sign stored hpos current tr1 tr2 heq,
    ?_, ?_⟩
  · rw [compute_allFail sigC3 3 [800, 600] 500 600 (by decide) rfl]
    simp [backSweep, sigC3]
  · simp [backSweep, sigC3]

theorem backwardSweep_contract_witness :
    computeSignedUptime sigC3 3 [800, 600] 500 = (backSweep sigC3 500 600).1 :=
  backwardSweep_contract.1 Nat sigC3 3 500 600 [800, 600] (by decide) rfl

/-- C4: in the forward sweep the upward 5% ramp is attempted if and
only if the first successfully signed sample is the one at index 0:
with failing samples `pre` before a succeeding sample `s`, the engine
returns the ramp result exactly when `pre` is empty, and otherwise
returns `(s, m)` itself immediately; the samples after `s` are
arbitrary and never examined. -/
theorem forwardRamp_iff {M : Type} (sign : Nat → Option M) (fuel stored : Nat)
    (pre : List Nat) (s : Nat) (rest : List Nat) (m : M)
    (hpre : ∀ x ∈ pre, sign x = none) (hs : sign s = some m) :
    computeSignedUptime sign fuel (pre ++ s :: rest) stored =
      some (if pre.isEmpty then rampLoop sign fuel s m else (s, m)) := by
  have key : ∀ (b : Bool) (pre2 : List Nat), (∀ x ∈ pre2, sign x = none) →
      forwardSweep sign fuel b (pre2 ++ s :: rest) =
        some (if b && pre2.isEmpty then rampLoop sign fuel s m else (s, m)) := by
    intro b pre2
    induction pre2 generalizing b with
    | nil =>
      intro _
      simp only [List.nil_append, forwardSweep, hs, List.isEmpty_nil, Bool.and_true]
      cases b with
      | true => simp
      | false => simp
    | cons a t ih =>
      intro hfail
      have ha : sign a = none := hfail a (by simp)
      simp only [List.cons_append, forwardSweep, ha, List.append_eq]
      rw [ih false (fun x hx => hfail x (List.mem_cons_of_mem _ hx))]
      simp
  simp only [computeSignedUptime, key true pre hpre, Bool.true_and]

/-- Sign oracle for the C4 witness: only 10 signs. -/
def sigC4 : Nat → Option Nat := fun u => if u = 10 then some 5 else none

theorem forwardRamp_iff_witness :
    computeSignedUptime sigC4 1 ([20] ++ 10 :: [3]) 0 =
      some (if ([20] : List Nat).isEmpty then rampLoop sigC4 1 10 5 else (10, 5)) :=
  forwardRamp_iff sigC4 1 0 [20] 10 [3] 5 (by decide) rfl

/-- C8 (amended): the ramp step computes
`next = max(⌈current·1.05⌉, current+1)`, which strictly exceeds
`current` for `1 ≤ current < 2^64 - 1` whatever `uint64` value the
float conversion produced, and in particular the step from 1 is 2;
but at `current = 2^64 - 1` every possible conversion result forces
the `current + 1` fallback, which wraps modulo `2^64` to 0 instead
of saturating. -/
theorem rampStep_contract :
    (∀ c conv : Nat, 1 ≤ c → c < 2 ^ 64 - 1 → conv < 2 ^ 64 →
      c < rampNextConv conv c) ∧
    (∀ c : Nat, 1 ≤ c → rampNext c = max (rampCeil c) (c + 1)) ∧
    rampNext 1 = 2 ∧
    (∀ conv : Nat, conv < 2 ^ 64 → rampNextConv conv (2 ^ 64 - 1) = 0) := by
  refine ⟨?_, ?_, by decide, ?_⟩
  · intro c conv h1 h2 h3
    unfold rampNextConv
    by_cases h : conv ≤ c
    · rw [if_pos h, Nat.mod_eq_of_lt (by omega)]
      omega
    · rw [if_neg h]
      omega
  · intro c h1
    have hge := rampCeil_ge c h1
    unfold rampNext rampNextConv
    rw [if_neg (by omega)]
    omega
  · intro conv h
    unfold rampNextConv
    rw [if_pos (by omega)]
    have : 2 ^ 64 - 1 + 1 = 2 ^ 64 := by omega
    rw [this, Nat.mod_self]

theorem rampStep_contract_witness : (1 : Nat) < rampNextConv 0 1 :=
  rampStep_contract.1 1 0 (by norm_num) (by norm_num) (by norm_num)

/-- C8 counterexample: at `current = 2^64 - 1`, even a saturating
float-to-`uint64` conversion (result `2^64 - 1`) forces the
`current + 1` fallback, which wraps to 0 — the next candidate is not
greater than `current` and the arithmetic wraps rather than
saturates. -/
theorem rampStep_saturation_counterexample :
    rampNextConv (2 ^ 64 - 1) (2 ^ 64 - 1) = 0 ∧ (0 : Nat) < 2 ^ 64 - 1 := by
  constructor
  · unfold rampNextConv
    rw [if_pos (Nat.le_refl _)]
    have : 2 ^ 64 - 1 + 1 = 2 ^ 64 := by omega
    rw [this, Nat.mod_self]
  · norm_num

lemma processValidator_cases {M : Type} (env : CycleEnv M) (snap tbl : PTable M)
    (v : String) (samples : List Nat) :
    processValidator env snap tbl v samples = (tbl, []) ∨
    processValidator env snap tbl v samples = (tbl, [PEv.submitEv false]) ∨
    ∃ u m, computeSignedUptime (env.sign v) env.fuel samples (storedUptimeOf snap v) =
        some (u, m) ∧
      env.submit v m = none ∧
      processValidator env snap tbl v samples =
        ((storeUptimeProofWithRefresh (env.sign v) tbl v u m env.now).2,
          [PEv.submitEv true, PEv.storeEv u]) := by
  unfold processValidator
  by_cases hb : v ∈ env.bootstrap
  · left; simp [hb]
  · by_cases he : samples = []
    · left; simp [hb, he]
    · cases hc : computeSignedUptime (env.sign v) env.fuel samples (storedUptimeOf snap v) with
      | none => left; simp [hb, he, hc]
      | some r =>
        obtain ⟨u, m⟩ := r
        by_cases hp : env.parseOK v
        · cases hsub : env.submit v m with
          | some e => right; left; simp [hb, he, hc, hp, hsub]
          | none =>
            right; right
            refine ⟨u, m, rfl, hsub, ?_⟩
            simp [hb, he, hc, hp, hsub]
        · left; simp [hb, he, hc, hp]

lemma runCycleFrom_length {M : Type} (env : CycleEnv M) (snap : PTable M) :
    ∀ (vs : List (String × List Nat)) (tbl : PTable M),
      (runCycleFrom env snap tbl vs).2.length = vs.length := by
  intro vs
  induction vs with
  | nil => intro tbl; rfl
  | cons p rest ih =>
    intro tbl
    cases p with
    | mk v ss => simp [runCycleFrom, ih]

/-- C5: in the generate-and-submit pipeline the store is written only
after a successful contract submission in the same cycle: when the
engine yields no signature the validator is skipped with no store
call and the table untouched; when the submission fails the validator
is skipped with no store call and the table untouched; any store
event in the trace of a validator is immediately preceded by a successful
submission; and the cycle processes every validator regardless of
per-validator failures. -/
theorem submitBeforeStore_contract {M : Type} :
    (∀ (env : CycleEnv M) (snap tbl : PTable M) (v : String) (samples : List Nat),
      computeSignedUptime (env.sign v) env.fuel samples (storedUptimeOf snap v) = none →
      processValidator env snap tbl v samples = (tbl, [])) ∧
    (∀ (env : CycleEnv M) (snap tbl : PTable M) (v : String) (samples : List Nat)
      (u : Nat) (m : M) (e : String),
      env.bootstrap.contains v = false → samples.isEmpty = false →
      env.parseOK v = true →
      computeSignedUptime (env.sign v) env.fuel samples (storedUptimeOf snap v) =
        some (u, m) →
      env.submit v m = some e →
      processValidator env snap tbl v samples = (tbl, [PEv.submitEv false])) ∧
    (∀ (env : CycleEnv M) (snap tbl : PTable M) (v : String) (samples : List Nat)
      (u : Nat),
      PEv.storeEv u ∈ (processValidator env snap tbl v samples).2 →
      (processValidator env snap tbl v samples).2 =
        [PEv.submitEv true, PEv.storeEv u]) ∧
    (∀ (env : CycleEnv M) (tbl : PTable M) (vs : List (String × List Nat)),
      (runCycle env tbl vs).2.length = vs.length) := by
  refine ⟨?_, ?_, ?_, ?_⟩
  · intro env snap tbl v samples hnone
    unfold processValidator
    by_cases hb : v ∈ env.bootstrap
    · simp [hb]
    · by_cases he : samples = []
      · simp [hb, he]
      · simp [hb, he, hnone]
  · intro env snap tbl v samples u m e hb he hp hc hsub
    have hb2 : v ∉ env.bootstrap := by simpa using hb
    have he2 : ¬ samples = [] := by simpa using he
    unfold processValidator
    simp [hb2, he2, hc, hp, hsub]
  · intro env snap tbl v samples u hmem
    rcases processValidator_cases env snap tbl v samples with h | h | ⟨u2, m2, -, -, h⟩
    · rw [h] at hmem; simp at hmem
    · rw [h] at hmem; simp at hmem
    · rw [h] at hmem ⊢
      simp only [List.mem_cons, List.mem_singleton] at hmem
      rcases hmem with h2 | h2 | h2
      · exact absurd h2 (by simp)
      · simp at h2
        subst h2
        rfl
      · simp at h2
  · intro env tbl vs
    exact runCycleFrom_length env tbl vs tbl

/-- Environment for the C5 witness: signing succeeds only at 10,
every submission is rejected. -/
def envC5 : CycleEnv Nat :=
  ⟨fun _ u => if u = 10 then some 1 else none, fun _ _ => some "boom",
    fun _ => true, [], 1, 0⟩

theorem submitBeforeStore_contract_witness :
    processValidator envC5 (fun _ => none) (fun _ => none) "v" [10] =
      ((fun _ => none), [PEv.submitEv false]) :=
  submitBeforeStore_contract.2.1 envC5 (fun _ => none) (fun _ => none) "v" [10]
    10 1 "boom" rfl rfl rfl rfl rfl

/-- C7 (amended): in the reconciliation pass, a stored proof whose
initial submission fails with an error containing
`invalid warp message` is re-signed at the stored uptime and
submitted again; when this second submission succeeds the iteration
reports the re-signed outcome, but the refreshed signed message is
not written back to the proof store — the table is unchanged on
every path of the loop. -/
theorem reconcile_resign_contract {M U : Type} (submit : M → Option String)
    (pack : Nat → Option U) (agg : U → Option M) (tbl : PTable M) (u : Nat) (m : M)
    (e : String) (un : U) (m2 : M)
    (h1 : submit m = some e) (h2 : strContains e "invalid warp message" = true)
    (h3 : pack u = some un) (h4 : agg un = some m2) (h5 : submit m2 = none) :
    reconcileOne submit pack agg tbl u m = (ReconRes.okResigned m2, tbl) := by
  simp only [reconcileOne, h1, h2, h3, h4, h5, if_true]

/-- Table for the C7 scenario: validator `v` stored at uptime 1000
with signed message 1. -/
def tblC7 : PTable Nat := fun w => if w = "v" then some ⟨1000, 1, 0, 0⟩ else none

/-- Contract oracle for the C7 scenario: the stored message 1 is
rejected as an expired warp message; message 2 is accepted. -/
def submitC7 : Nat → Option String :=
  fun m => if m = 1 then some "invalid warp message" else none

/-- Aggregator pack oracle for the C7 scenario. -/
def packC7 : Nat → Option Nat := fun u => if u = 1000 then some 42 else none

/-- Aggregator signing oracle for the C7 scenario: produces the
fresh message 2. -/
def aggC7 : Nat → Option Nat := fun un => if un = 42 then some 2 else none

/-- C7 counterexample: the re-signed second submission succeeds with
the refreshed message 2, yet the proof store still holds the old
message 1 at uptime 1000 — the refreshed signature is never stored,
contradicting the claimed signature-refresh store. -/
theorem reconcile_noStore_counterexample :
    reconcileOne submitC7 packC7 aggC7 tblC7 1000 1 = (ReconRes.okResigned 2, tblC7) ∧
      (tblC7 "v").map (fun r => r.signedMessage) = some 1 ∧ (1 : Nat) ≠ 2 :=
  ⟨rfl, rfl, by norm_num⟩

theorem reconcile_resign_contract_witness :
    reconcileOne submitC7 packC7 aggC7 tblC7 1000 1 = (ReconRes.okResigned 2, tblC7) :=
  reconcile_resign_contract submitC7 packC7 aggC7 tblC7 1000 1
    "invalid warp message" 42 2 rfl rfl rfl rfl rfl

/-- The samples the response of one endpoint contributes for validator
`v`, in response order. -/
def sForE (v : String) (ss : List USample) : List Nat :=
  ss.filterMap (fun s => if s.validationID = v then some s.uptimeSeconds else none)

lemma samplesFor_nil (v : String) : samplesFor v [] = [] := rfl

lemma samplesFor_cons (v : String) (r : Option (List USample))
    (rs : List (Option (List USample))) :
    samplesFor v (r :: rs) =
      (match r with | none => [] | some ss => sForE v ss) ++ samplesFor v rs := by
  cases r with
  | none => simp [samplesFor]
  | some ss => simp [samplesFor, sForE, List.filterMap_append]

lemma lookupA_addSample (m : List (String × List Nat)) (a v : String) (u : Nat) :
    lookupA (addSample m a u) v =
      if a = v then some ((lookupA m v).getD [] ++ [u]) else lookupA m v := by
  induction m with
  | nil => by_cases h : a = v <;> simp [addSample, lookupA, h]
  | cons p rest ih =>
    obtain ⟨w, l⟩ := p
    simp only [addSample]
    by_cases hw : w = a
    · rw [if_pos hw]
      subst hw
      by_cases hv : w = v
      · subst hv
        simp [lookupA]
      · simp [lookupA, hv]
    · rw [if_neg hw]
      by_cases hv : w = v
      · subst hv
        have ha : ¬ a = w := fun h => hw h.symm
        simp [lookupA, ha]
      · simp [lookupA, hv, ih]

lemma lookupA_collectFrom (v : String) : ∀ (ss : List USample)
    (acc : List (String × List Nat)),
    lookupA (collectFrom acc ss) v =
      match lookupA acc v with
      | some l => some (l ++ sForE v ss)
      | none => if sForE v ss = [] then none else some (sForE v ss) := by
  intro ss
  induction ss with
  | nil => intro acc; cases h : lookupA acc v <;> simp [collectFrom, sForE, h]
  | cons smp t ih =>
    intro acc
    have hstep : collectFrom acc (smp :: t) =
        collectFrom (addSample acc smp.validationID smp.uptimeSeconds) t := rfl
    rw [hstep, ih, lookupA_addSample]
    by_cases hv : smp.validationID = v
    · rw [if_pos hv]
      have hsf : sForE v (smp :: t) = smp.uptimeSeconds :: sForE v t := by
        simp [sForE, List.filterMap_cons, hv]
      rw [hsf]
      cases hacc : lookupA acc v with
      | some l => simp
      | none => simp
    · rw [if_neg hv]
      have hsf : sForE v (smp :: t) = sForE v t := by
        simp [sForE, List.filterMap_cons, hv]
      rw [hsf]

lemma lookupA_collectAll_aux (v : String) : ∀ (rs : List (Option (List USample)))
    (acc : List (String × List Nat)),
    lookupA (rs.foldl
      (fun acc r =>
        match r with
        | none => acc
        | some ss => collectFrom acc ss) acc) v =
      match lookupA acc v with
      | some l => some (l ++ samplesFor v rs)
      | none => if samplesFor v rs = [] then none else some (samplesFor v rs) := by
  intro rs
  induction rs with
  | nil =>
    intro acc
    cases h : lookupA acc v <;> simp [samplesFor_nil, h]
  | cons r t ih =>
    intro acc
    rw [List.foldl_cons]
    cases r with
    | none =>
      rw [ih acc, samplesFor_cons]
      simp
    | some ss =>
      rw [ih (collectFrom acc ss), lookupA_collectFrom, samplesFor_cons]
      cases hacc : lookupA acc v with
      | some l => simp [List.append_assoc]
      | none =>
        by_cases hsf : sForE v ss = []
        · simp [hsf]
        · simp only [hsf, if_false]
          have hne : ¬ (sForE v ss ++ samplesFor v t = []) := by
            simp [List.append_eq_nil, hsf]
          simp [hne]

lemma lookupA_collectAll (rs : List (Option (List USample))) (v : String) :
    lookupA (collectAll rs) v =
      if samplesFor v rs = [] then none else some (samplesFor v rs) := by
  have h := lookupA_collectAll_aux v rs []
  simpa [collectAll, lookupA] using h

lemma lookupA_map_sort (m : List (String × List Nat)) (v : String) :
    lookupA (m.map (fun p => (p.1, sortDesc p.2))) v = (lookupA m v).map sortDesc := by
  induction m with
  | nil => rfl
  | cons p rest ih =>
    obtain ⟨w, l⟩ := p
    by_cases hv : w = v <;> simp [lookupA, hv, ih]

lemma sortDesc_perm (l : List Nat) : (sortDesc l).Perm l := List.perm_insertionSort _ l

lemma sortDesc_sorted (l : List Nat) : (sortDesc l).Pairwise (· ≥ ·) :=
  List.sorted_insertionSort _ l

/-- C9: `FetchAggregatedUptimes` maps each validation ID to exactly
the multiset of samples contributed by the successful endpoints,
sorted non-increasingly with duplicates preserved; the group of a present key is a permutation of those contributions; a key is absent
exactly when no successful endpoint reported it; a failed endpoint
contributes nothing and raises no error (removing it changes
nothing); and when every endpoint fails the function returns the
empty map rather than an error. -/
theorem fetchAggregatedUptimes_contract :
    (∀ (rs : List (Option (List USample))) (v : String) (l : List Nat),
      lookupA (fetchAggregatedUptimes rs) v = some l →
      l.Perm (samplesFor v rs) ∧ l.Pairwise (· ≥ ·)) ∧
    (∀ (rs : List (Option (List USample))) (v : String),
      lookupA (fetchAggregatedUptimes rs) v = none ↔ samplesFor v rs = []) ∧
    (∀ (rs1 rs2 : List (Option (List USample))),
      fetchAggregatedUptimes (rs1 ++ none :: rs2) =
        fetchAggregatedUptimes (rs1 ++ rs2)) ∧
    (∀ (rs : List (Option (List USample))), (∀ r ∈ rs, r = none) →
      fetchAggregatedUptimes rs = []) := by
  have hlook : ∀ (rs : List (Option (List USample))) (v : String),
      lookupA (fetchAggregatedUptimes rs) v =
        (if samplesFor v rs = [] then none else some (samplesFor v rs)).map sortDesc := by
    intro rs v
    rw [fetchAggregatedUptimes, lookupA_map_sort, lookupA_collectAll]
  refine ⟨?_, ?_, ?_, ?_⟩
  · intro rs v l h
    rw [hlook] at h
    by_cases hemp : samplesFor v rs = []
    · simp [hemp] at h
    · simp only [hemp, if_false, Option.map_some] at h
      rw [← Option.some.inj h]
      exact ⟨sortDesc_perm _, sortDesc_sorted _⟩
  · intro rs v
    rw [hlook]
    by_cases hemp : samplesFor v rs = [] <;> simp [hemp]
  · intro rs1 rs2
    unfold fetchAggregatedUptimes collectAll
    rw [List.foldl_append, List.foldl_append, List.foldl_cons]
  · intro rs h
    have hnil : ∀ (rs2 : List (Option (List USample))), (∀ r ∈ rs2, r = none) →
        ∀ acc, rs2.foldl
          (fun acc r =>
            match r with
            | none => acc
            | some ss => collectFrom acc ss) acc = acc := by
      intro rs2
      induction rs2 with
      | nil => intro _ acc; rfl
      | cons r t ih =>
        intro h2 acc
        have hr : r = none := h2 r (by simp)
        subst hr
        rw [List.foldl_cons]
        exact ih (fun x hx => h2 x (List.mem_cons_of_mem _ hx)) acc
    unfold fetchAggregatedUptimes collectAll
    rw [hnil rs h []]
    rfl

/-- Endpoint responses for the C9 witness: two reachable endpoints
reporting `x` (with a duplicate value pattern) and one failed
endpoint. -/
def rsC9 : List (Option (List USample)) :=
  [some [⟨"x", 3⟩, ⟨"x", 5⟩], none, some [⟨"x", 4⟩]]

theorem fetchAggregatedUptimes_contract_witness :
    ([5, 4, 3] : List Nat).Perm (samplesFor "x" rsC9) ∧
      ([5, 4, 3] : List Nat).Pairwise (· ≥ ·) :=
  fetchAggregatedUptimes_contract.1 rsC9 "x" [5, 4, 3] rfl

/-- C10: every entry of the map returned by `FetchAggregatedUptimes`
has a non-empty sample group, so the empty-sample
guard of the orchestrator never fires for a present key, the last-element read that
embeds `uptimeSamples[len(uptimeSamples)-1]` is always in bounds,
and the backward sweep of `computeSignedUptime` starts from that
well-defined last element. -/
theorem fetch_entries_nonempty :
    ∀ (rs : List (Option (List USample))) (v : String) (l : List Nat),
      lookupA (fetchAggregatedUptimes rs) v = some l →
      l.isEmpty = false ∧ (∃ last, l.getLast? = some last) ∧
      (∀ (M : Type) (sign : Nat → Option M) (fuel stored : Nat),
        (∀ s ∈ l, sign s = none) →
        computeSignedUptime sign fuel l stored =
          (backSweep sign stored (l.getLast?.getD 0)).1) := by
  intro rs v l h
  have hlook : lookupA (fetchAggregatedUptimes rs) v =
      (if samplesFor v rs = [] then none else some (samplesFor v rs)).map sortDesc := by
    rw [fetchAggregatedUptimes, lookupA_map_sort, lookupA_collectAll]
  rw [hlook] at h
  by_cases hemp : samplesFor v rs = []
  · simp [hemp] at h
  · simp only [hemp, if_false, Option.map_some] at h
    have hperm : l.Perm (samplesFor v rs) := by
      rw [← Option.some.inj h]
      exact sortDesc_perm _
    have hne : l ≠ [] := by
      intro hl
      subst hl
      exact hemp (List.Perm.nil_eq hperm).symm
    have hsome : ∃ last, l.getLast? = some last := by
      cases hl : l.getLast? with
      | none => exact absurd (List.getLast?_eq_none_iff.mp hl) hne
      | some last => exact ⟨last, rfl⟩
    obtain ⟨last, hlast⟩ := hsome
    refine ⟨by cases l with | nil => exact absurd rfl hne | cons a t => rfl,
      ⟨last, hlast⟩, ?_⟩
    intro M sign fuel stored hfail
    rw [compute_allFail sign fuel l stored last hfail hlast, hlast]
    rfl

/-- Endpoint responses for the C10 witness. -/
def rsC10 : List (Option (List USample)) := [some [⟨"y", 2⟩]]

theorem fetch_entries_nonempty_witness : ([2] : List Nat).isEmpty = false :=
  (fetch_entries_nonempty rsC10 "y" [2] rfl).1
